import Mathlib

/-!
Shallow embedding of the ReadyRecipe ingredient-matching and recipe-scoring
core (TypeScript), together with proofs about it.

Conventions of the embedding:
* JavaScript numbers are modelled as exact rationals (`ℚ`); the IEEE-754
  special values NaN and ±Infinity are modelled explicitly by the `JsNum`
  sum type where they can actually arise (division, `parseFloat`).
* JavaScript strings are Lean `String`s; the character-level operations
  (lowercasing, trimming, splitting on `/\s+/`, word-boundary regex tests)
  are modelled over `List Char` with ASCII semantics, which covers the
  ingredient vocabulary the program operates on.
* The transcendental primitives `Math.sin`, `Math.cos`, `Math.sqrt` are
  taken as function parameters (`ℚ → ℚ`), since the properties proved here
  do not depend on their values (beyond `sqrt 0 = 0` where stated).
* Fallible code (`cosineSimilarity` throws on length mismatch) returns
  `Except String ℚ`.
-/

namespace ReadyRecipe

/-- Model of a JavaScript number: either an exact finite value or one of
the IEEE special values. -/
inductive JsNum where
  | nan : JsNum
  | posInf : JsNum
  | negInf : JsNum
  | val : ℚ → JsNum
deriving DecidableEq, Repr

/-- JavaScript division `a / b` on finite operands: finite quotient when
`b ≠ 0`, otherwise `0/0 = NaN` and `±a/0 = ±Infinity`. -/
def jsDiv (a b : ℚ) : JsNum :=
  if b = 0 then
    if a = 0 then JsNum.nan else if 0 < a then JsNum.posInf else JsNum.negInf
  else JsNum.val (a / b)

/-- JavaScript strict `<` on numbers: any comparison with NaN is false,
`-Infinity` is below and `+Infinity` above every finite value. -/
def numLt : JsNum → JsNum → Bool
  | JsNum.nan, _ => false
  | _, JsNum.nan => false
  | JsNum.posInf, _ => false
  | _, JsNum.posInf => true
  | JsNum.negInf, JsNum.negInf => false
  | JsNum.negInf, JsNum.val _ => true
  | JsNum.val _, JsNum.negInf => false
  | JsNum.val a, JsNum.val b => decide (a < b)

/-- JavaScript `\w` character class: ASCII letters, digits and underscore. -/
def isWordChar (c : Char) : Bool :=
  c.isAlphanum || c == '_'

/-- JavaScript `String.prototype.trim` on a character list: drop leading and
trailing whitespace. -/
def trimChars (cs : List Char) : List Char :=
  ((cs.dropWhile Char.isWhitespace).reverse.dropWhile Char.isWhitespace).reverse

/-- The normalisation step `s.toLowerCase().trim()` shared by the matchers,
producing a character list. -/
def normalize (s : String) : List Char :=
  trimChars (s.data.map Char.toLower)

/-- Auxiliary for `splitWs`: split a character list at every single
whitespace character (the semantics of `split(/\s/)`), keeping empty
fields. -/
def splitAtWs : List Char → List (List Char)
  | [] => [[]]
  | c :: rest =>
    match splitAtWs rest with
    | [] => [[]]
    | f :: fs => if c.isWhitespace then [] :: f :: fs else (c :: f) :: fs

/-- JavaScript `s.split(/\s+/)`: fields separated by maximal whitespace
runs; a leading (resp. trailing) whitespace run contributes one empty
leading (resp. trailing) field, and the empty string yields `[""]`. -/
def splitWs (cs : List Char) : List (List Char) :=
  match cs with
  | [] => [[]]
  | c :: rest =>
    let fields := (splitAtWs (c :: rest)).filter (fun f => !f.isEmpty)
    let lead : List (List Char) := if c.isWhitespace then [[]] else []
    let trail : List (List Char) :=
      if ((c :: rest).getLast (by simp)).isWhitespace then [[]] else []
    lead ++ fields ++ trail

/-- `wordAt text j` is true when position `j` of `text` holds a `\w`
character (out-of-range counts as non-word). -/
def wordAt (text : List Char) (j : Nat) : Bool :=
  match text.get? j with
  | some c => isWordChar c
  | none => false

/-- Regex `\b` holds at position `p` of `text` when exactly one of the two
adjacent positions holds a word character. -/
def boundaryAt (text : List Char) (p : Nat) : Bool :=
  (if p = 0 then false else wordAt text (p - 1)) != wordAt text p

/-- The literal pattern `pat` occurs at position `i` of `text`. -/
def occursAt (pat text : List Char) (i : Nat) : Bool :=
  (text.drop i).take pat.length == pat

/-- Model of `new RegExp("\\b" + escapeRegex(pat) + "\\b").test(text)`:
the escaped pattern is a literal, so the test succeeds iff `pat` occurs
somewhere in `text` with a word boundary on both sides.  For the empty
pattern this degenerates to `\b\b`, which holds wherever `text` has a word
boundary at all. -/
def wordBoundaryTest (pat text : List Char) : Bool :=
  (List.range (text.length + 1)).any fun i =>
    occursAt pat text i && boundaryAt text i && boundaryAt text (i + pat.length)

/-- Embedding of `ingredientMatches` (lib/utils.ts): normalise both sides,
accept on equality, otherwise test word-boundary containment in either
direction. -/
def ingredientMatches (userIngredient recipeIngredient : String) : Bool :=
  let userLower := normalize userIngredient
  let recipeLower := normalize recipeIngredient
  if userLower == recipeLower then true
  else wordBoundaryTest userLower recipeLower || wordBoundaryTest recipeLower userLower

/-- The strict per-pair predicate inside `calculateExactMatches`
(lib/ai/embeddings.ts): identical normalised strings, or — rejecting any
single-word vs multi-word pair — for different word counts every word of
the shorter phrase occurs in the longer one, and for equal word counts the
word sequences must agree position by position. -/
def exactIngredientMatch (userIngredient recipeIngredient : String) : Bool :=
  let userLower := normalize userIngredient
  let recipeLower := normalize recipeIngredient
  if userLower == recipeLower then true
  else
    let userWords := splitWs userLower
    let recipeWords := splitWs recipeLower
    if (userWords.length == 1 && recipeWords.length > 1) ||
       (userWords.length > 1 && recipeWords.length == 1) then false
    else if userWords.length != recipeWords.length then
      let shorter := if userWords.length < recipeWords.length then userWords else recipeWords
      let longer := if userWords.length < recipeWords.length then recipeWords else userWords
      shorter.all (fun w => longer.contains w)
    else (userWords.zip recipeWords).all (fun p => p.1 == p.2)

/-- Embedding of the strict `calculateExactMatches` (lib/ai/embeddings.ts):
count the recipe ingredients that some user ingredient matches exactly. -/
def calculateExactMatches (userIngredients recipeIngredients : List String) : Nat :=
  (recipeIngredients.filter fun recipeIngredient =>
    userIngredients.any fun userIngredient =>
      exactIngredientMatch userIngredient recipeIngredient).length

/-- Embedding of `calculateCoverageScore` (lib/ai/embeddings.ts): fraction
of recipe ingredients matched by some user ingredient.  The source divides
by `recipeIngredients.length` with no guard, so the result is a `JsNum`
(`0/0 = NaN` for an empty recipe list). -/
def calculateCoverageScore (userIngredients recipeIngredients : List String) : JsNum :=
  let matchedCount := (recipeIngredients.filter fun recipeIngredient =>
    userIngredients.any fun userIngredient =>
      ingredientMatches userIngredient recipeIngredient).length
  jsDiv matchedCount recipeIngredients.length

/-- Embedding of `calculateIngredientMatchRate` (lib/ai/embeddings.ts):
fraction of user ingredients found in the recipe, with an explicit guard
returning 0 for an empty user list (so the division is by a nonzero
count). -/
def calculateIngredientMatchRate (userIngredients recipeIngredients : List String) : ℚ :=
  if userIngredients.length = 0 then 0
  else
    let foundCount := (userIngredients.filter fun userIngredient =>
      recipeIngredients.any fun recipeIngredient =>
        ingredientMatches userIngredient recipeIngredient).length
    (foundCount : ℚ) / (userIngredients.length : ℚ)

/-- Raw match values as they reach the normaliser: `null`, `undefined`, a
number, or a string. -/
inductive MatchValue where
  | null : MatchValue
  | undefined : MatchValue
  | num : JsNum → MatchValue
  | str : String → MatchValue
deriving DecidableEq, Repr

/-- JavaScript `String.prototype.trim` at string level. -/
def jsTrim (s : String) : String :=
  String.mk (trimChars s.data)

/-- The `replace(/%$/, "")` step: remove one trailing percent sign. -/
def stripTrailingPercent (s : String) : String :=
  if s.endsWith "%" then s.dropRight 1 else s

/-- Digit-sequence value for `parseFloat`. -/
def digitsToNat (ds : List Char) : Nat :=
  ds.foldl (fun n c => n * 10 + (c.toNat - '0'.toNat)) 0

/-- The optional `ExponentPart` of a decimal literal: `e`/`E`, an optional
sign and at least one digit; anything else contributes exponent 0 (the
longest-prefix rule simply drops an incomplete exponent). -/
def parseExponent (cs : List Char) : Int :=
  match cs with
  | [] => 0
  | c :: rest =>
    if c = 'e' ∨ c = 'E' then
      match rest with
      | '+' :: r => let ds := r.takeWhile Char.isDigit
                    if ds = [] then 0 else (digitsToNat ds : Int)
      | '-' :: r => let ds := r.takeWhile Char.isDigit
                    if ds = [] then 0 else -(digitsToNat ds : Int)
      | r => let ds := r.takeWhile Char.isDigit
             if ds = [] then 0 else (digitsToNat ds : Int)
    else 0

/-- Model of JavaScript `parseFloat`: skip leading whitespace, read an
optional sign, then the longest prefix that is `Infinity` or a decimal
literal (`digits [. digits] [exponent]` or `. digits [exponent]`); if no
such prefix exists the result is NaN.  Values are exact rationals. -/
def jsParseFloat (s : String) : JsNum :=
  let cs := s.data.dropWhile Char.isWhitespace
  let signed : Bool × List Char :=
    match cs with
    | '+' :: r => (false, r)
    | '-' :: r => (true, r)
    | r => (false, r)
  let neg := signed.1
  let body := signed.2
  if "Infinity".data.isPrefixOf body then
    if neg then JsNum.negInf else JsNum.posInf
  else
    let intDigits := body.takeWhile Char.isDigit
    let rest1 := body.dropWhile Char.isDigit
    let fracAndRest : List Char × List Char :=
      match rest1 with
      | '.' :: r => (r.takeWhile Char.isDigit, r.dropWhile Char.isDigit)
      | r => ([], r)
    let fracDigits := fracAndRest.1
    if intDigits = [] ∧ fracDigits = [] then JsNum.nan
    else
      let e := parseExponent fracAndRest.2
      let mant : ℚ := (digitsToNat intDigits : ℚ) +
        (digitsToNat fracDigits : ℚ) / (10 : ℚ) ^ fracDigits.length
      let q := mant * (10 : ℚ) ^ e
      JsNum.val (if neg then -q else q)

/-- Embedding of `normalizeMatchValue` (lib/sortRecipes.ts): `null` and
`undefined` give 0; strings are trimmed, stripped of a trailing `%` and
parsed (unparsable gives 0); a finite value in `(0, 1]` is scaled by 100,
and every other parsed or numeric value goes through `Math.max(0, v)`.
Note the string path checks only `isNaN`, so `"Infinity"` yields
`+Infinity`, while non-finite numeric inputs are caught and give 0. -/
def normalizeMatchValue : MatchValue → JsNum
  | MatchValue.null => JsNum.val 0
  | MatchValue.undefined => JsNum.val 0
  | MatchValue.str s =>
    match jsParseFloat (stripTrailingPercent (jsTrim s)) with
    | JsNum.nan => JsNum.val 0
    | JsNum.posInf => JsNum.posInf
    | JsNum.negInf => JsNum.val 0
    | JsNum.val parsed =>
      if 0 < parsed ∧ parsed ≤ 1 then JsNum.val (parsed * 100)
      else JsNum.val (max 0 parsed)
  | MatchValue.num n =>
    match n with
    | JsNum.nan => JsNum.val 0
    | JsNum.posInf => JsNum.val 0
    | JsNum.negInf => JsNum.val 0
    | JsNum.val v =>
      if 0 < v ∧ v ≤ 1 then JsNum.val (v * 100)
      else JsNum.val (max 0 v)

/-- Embedding of `parseMatchValue` (src/utils/sortRecipes.ts): like
`normalizeMatchValue` but the percent sign is stripped before trimming,
non-finite parsed values (including `"Infinity"`) give 0, and values
outside `(0, 1]` are returned unchanged — negatives are NOT clamped. -/
def parseMatchValue : MatchValue → JsNum
  | MatchValue.null => JsNum.val 0
  | MatchValue.undefined => JsNum.val 0
  | MatchValue.num n =>
    match n with
    | JsNum.val v => if 0 < v ∧ v ≤ 1 then JsNum.val (v * 100) else JsNum.val v
    | _ => JsNum.val 0
  | MatchValue.str s =>
    match jsParseFloat (jsTrim (stripTrailingPercent s)) with
    | JsNum.val v => if 0 < v ∧ v ≤ 1 then JsNum.val (v * 100) else JsNum.val v
    | _ => JsNum.val 0

/-- An item fed to the flexible sorter: optional `match` and
`coverageScore` properties (absent-or-undefined collapses to `none`) plus
an opaque payload standing for the item's other fields. -/
structure RecipeWithMatch (α : Type) where
  matchField : Option MatchValue
  coverageScore : Option MatchValue
  payload : α
deriving DecidableEq, Repr

/-- Embedding of `getMatchFromRecipe` (src/utils/sortRecipes.ts): the
`match` property takes precedence over `coverageScore`; with neither
present the value is 0. -/
def getMatchFromRecipe {α : Type} (recipe : RecipeWithMatch α) : JsNum :=
  match recipe.matchField with
  | some v => parseMatchValue v
  | none =>
    match recipe.coverageScore with
    | some v => parseMatchValue v
    | none => JsNum.val 0

/-- One step of the stable descending sort performed by
`Array.prototype.sort` with comparator `(a, b) => key b - key a`: the
element `x` (originally earlier than everything in the already-sorted
list) is placed before the first element whose key is not strictly greater
than `x`'s, which keeps ties in original order. -/
def insertDesc {α : Type} (key : α → JsNum) (x : α) : List α → List α
  | [] => [x]
  | y :: ys => if numLt (key x) (key y) then y :: insertDesc key x ys else x :: y :: ys

/-- Stable descending sort by `key`, the model of the JavaScript stable
`sort((a, b) => key b - key a)`. -/
def sortByDesc {α : Type} (key : α → JsNum) (l : List α) : List α :=
  l.foldr (insertDesc key) []

/-- Embedding of `filterAndSortRecipes` (lib/sortRecipes.ts): copy, pair
each item with its normalised match value, keep those strictly above 0,
stable-sort descending by the normalised value, and project the original
items back out.  The `matchKey` property access is modelled by the
accessor `getMatch`. -/
def filterAndSortRecipes {α : Type} (getMatch : α → MatchValue) (recipes : List α) : List α :=
  (sortByDesc Prod.snd
    ((recipes.map fun recipe => (recipe, normalizeMatchValue (getMatch recipe))).filter
      fun p => numLt (JsNum.val 0) p.2)).map Prod.fst

/-- The possible top-level inputs of the flexible sorter: `null`,
`undefined`, some non-array value, or an actual array. -/
inductive JsArrayInput (α : Type) where
  | null : JsArrayInput α
  | undefined : JsArrayInput α
  | notAnArray : JsArrayInput α
  | array : List α → JsArrayInput α

/-- Embedding of the flexible `filterAndSortRecipes`
(src/utils/sortRecipes.ts): guard non-arrays to `[]`, filter out items
with match value at most 0 (the filter builds a fresh array, so the input
array is left untouched), then stable-sort descending by
`getMatchFromRecipe`. -/
def filterAndSortRecipesFlex {α : Type} (input : JsArrayInput (RecipeWithMatch α)) :
    List (RecipeWithMatch α) :=
  match input with
  | JsArrayInput.array recipes =>
    sortByDesc getMatchFromRecipe
      (recipes.filter fun recipe => numLt (JsNum.val 0) (getMatchFromRecipe recipe))
  | _ => []

/-- Normalised exact-match metric used in the combined score:
`exactMatches / recipeIngredientCount`, or 0 for an empty recipe. -/
def exactMatchPercentage (exactMatches recipeIngredientCount : Nat) : ℚ :=
  if 0 < recipeIngredientCount then (exactMatches : ℚ) / (recipeIngredientCount : ℚ) else 0

/-- The combined-score formula of `scoreRecipes` (lib/actions.ts):
`matchRate * 0.5 + exactPct * 0.35 + similarity * 0.15`. -/
def combineScore (ingredientMatchRate exactMatchPct similarityScore : ℚ) : ℚ :=
  ingredientMatchRate * 0.5 + exactMatchPct * 0.35 + similarityScore * 0.15

/-- The weight the combined score puts on the (clamped) similarity metric. -/
def W_sim : ℚ := 0.15

/-- The weight the combined score puts on the ingredient match rate. -/
def W_match : ℚ := 0.5

/-- The weight the combined score puts on the utilization score: the
formula does not mention it, i.e. its weight is 0. -/
def W_util : ℚ := 0

/-- The weight the combined score puts on the normalised exact-match
metric. -/
def W_exact : ℚ := 0.35

/-- Per-recipe scoring record produced by `scoreRecipes` (lib/actions.ts),
minus the opaque recipe reference. -/
structure RecipeScore where
  similarityScore : ℚ
  ingredientMatchRate : ℚ
  utilizationScore : ℚ
  exactMatches : Nat
  combinedScore : ℚ
  matchedIngredients : List String
  missingIngredients : List String
deriving Repr

/-- Embedding of the per-recipe body of `scoreRecipes` (lib/actions.ts).
`rawSimilarity` stands for the `cosineSimilarity` value of the two
embeddings; the function clamps it to `[0, 1]`, computes the four metrics,
partitions the recipe ingredients into matched/missing with the lenient
matcher, and combines the metrics by `combineScore`. -/
def scoreRecipe (recipeIngredients selectedIngredients : List String)
    (rawSimilarity : ℚ) : RecipeScore :=
  let similarityScore := max 0 (min 1 rawSimilarity)
  let ingredientMatchRate := calculateIngredientMatchRate selectedIngredients recipeIngredients
  let exactMatches := calculateExactMatches selectedIngredients recipeIngredients
  let matchedIngredients := recipeIngredients.filter fun recipeIngredient =>
    selectedIngredients.any fun userIngredient =>
      ingredientMatches userIngredient recipeIngredient
  let missingIngredients := recipeIngredients.filter fun recipeIngredient =>
    !(selectedIngredients.any fun userIngredient =>
      ingredientMatches userIngredient recipeIngredient)
  let utilizationScore : ℚ :=
    if recipeIngredients.length = 0 then 0
    else (matchedIngredients.length : ℚ) / (recipeIngredients.length : ℚ)
  let exactPct := exactMatchPercentage exactMatches recipeIngredients.length
  { similarityScore := similarityScore
    ingredientMatchRate := ingredientMatchRate
    utilizationScore := utilizationScore
    exactMatches := exactMatches
    combinedScore := combineScore ingredientMatchRate exactPct similarityScore
    matchedIngredients := matchedIngredients
    missingIngredients := missingIngredients }

/-- Embedding of `cosineSimilarity` (lib/ai/embeddings.ts): throw on
length mismatch, otherwise accumulate the dot product and the two
squared magnitudes over the common indices (the sums over `zip` agree
with the source's index loop because the lengths are equal in this
branch), take square roots, return 0 if either magnitude is zero, and the
normalised dot product otherwise.  `jsSqrt` models `Math.sqrt`. -/
def cosineSimilarity (jsSqrt : ℚ → ℚ) (vec1 vec2 : List ℚ) : Except String ℚ :=
  if vec1.length ≠ vec2.length then Except.error "Vectors must have the same length"
  else
    let dotProduct := ((vec1.zip vec2).map fun p => p.1 * p.2).sum
    let magnitude1 := jsSqrt ((vec1.zip vec2).map fun p => p.1 * p.1).sum
    let magnitude2 := jsSqrt ((vec1.zip vec2).map fun p => p.2 * p.2).sum
    if magnitude1 = 0 ∨ magnitude2 = 0 then Except.ok 0
    else Except.ok (dotProduct / (magnitude1 * magnitude2))

/-- Two's-complement reading of an integer as an unsigned 32-bit value
(the `ToUint32` step of JavaScript bitwise operators). -/
def toUint32 (n : Int) : Nat :=
  (n % (4294967296 : Int)).toNat

/-- Signed reading of a 32-bit bit pattern (the final step of JavaScript
bitwise operators). -/
def toInt32 (m : Nat) : Int :=
  let r := m % 4294967296
  if r < 2147483648 then (r : Int) else (r : Int) - 4294967296

/-- JavaScript 32-bit `^` on integral numbers. -/
def jsXor (a b : Int) : Int :=
  toInt32 (Nat.xor (toUint32 a) (toUint32 b))

/-- JavaScript `h << 5` on an integral number: reduce to 32 bits, shift,
wrap. -/
def jsShl5 (h : Int) : Int :=
  toInt32 (toUint32 h * 32)

/-- The inline string hash of the near-zero fallback in
`generateSimpleEmbedding`: `reduce((h, c) => ((h << 5) - h) + code c, 0)`. -/
def stringHash (text : String) : Int :=
  text.data.foldl (fun h c => jsShl5 h - h + (c.toNat : Int)) 0

/-- In-place accumulation `v[i] += x` on the embedding array. -/
def addAt (v : List ℚ) (i : Nat) (x : ℚ) : List ℚ :=
  v.set i (v.getD i 0 + x)

/-- One of the three dimension indices of `generateSimpleEmbedding`:
`Math.abs((code*m1) ^ (charIdx*m2) ^ (wordIdx*m3)) % 384` with JavaScript
32-bit xor. -/
def hashDim (charCode charIdx wordIdx m1 m2 m3 : Nat) : Nat :=
  (jsXor (jsXor ((charCode * m1 : Nat) : Int) ((charIdx * m2 : Nat) : Int))
    ((wordIdx * m3 : Nat) : Int)).natAbs % 384

/-- Per-character update of the embedding in `generateSimpleEmbedding`:
three hashed dimensions receive trigonometric contributions scaled by the
word and character positions. -/
def processChar (jsSin jsCos : ℚ → ℚ) (wordIdx : Nat) (emb : List ℚ) (p : Nat × Char) :
    List ℚ :=
  let charIdx := p.1
  let charCode := p.2.toNat
  let dim1 := hashDim charCode charIdx wordIdx 73 131 37
  let dim2 := hashDim charCode charIdx wordIdx 97 179 53
  let dim3 := hashDim charCode charIdx wordIdx 113 211 67
  let e1 := addAt emb dim1 (jsSin ((charCode : ℚ) * 0.02) * (1 + (wordIdx : ℚ) * 0.1))
  let e2 := addAt e1 dim2 (-(jsCos ((charCode : ℚ) * 0.025) * (1 + (charIdx : ℚ) * 0.05)))
  addAt e2 dim3 (jsSin (((charCode : ℚ) + (charIdx : ℚ)) * 0.015))

/-- The double character loop of `generateSimpleEmbedding`: for every word
and every character of it, apply `processChar`. -/
def accumulateChars (jsSin jsCos : ℚ → ℚ) (words : List (List Char)) (init : List ℚ) :
    List ℚ :=
  words.enum.foldl (fun emb wp => wp.2.enum.foldl (processChar jsSin jsCos wp.1) emb) init

/-- The structural-signal loop of `generateSimpleEmbedding`: up to the
first 20 word indices receive a contribution derived from the average
word length. -/
def addStructural (jsSin : ℚ → ℚ) (avgWordLen : ℚ) (wordCount : Nat) (emb : List ℚ) :
    List ℚ :=
  (List.range (min wordCount 20)).foldl
    (fun acc i => addAt acc ((i * 19) % 384) (0.15 * jsSin (avgWordLen * 0.3 + (i : ℚ))))
    emb

/-- The hash-seeded regeneration of `generateSimpleEmbedding` used when the
accumulated magnitude is numerically negligible. -/
def hashSeedEmbedding (jsSin : ℚ → ℚ) (text : String) : List ℚ :=
  (List.range 384).map fun i : Nat => jsSin (((stringHash text : ℚ) + (i : ℚ)) * 0.001)

/-- Embedding of the exported `generateSimpleEmbedding`
(lib/ai/embeddings.ts): lowercase and split the text into nonempty words,
accumulate per-character trigonometric contributions into a 384-slot
array, add the coarse structural signal, and L2-normalise; when the raw
magnitude is below 0.001 the vector is regenerated from a string hash
first.  `jsSin`, `jsCos` and `jsSqrt` model `Math.sin`, `Math.cos` and
`Math.sqrt`; division by a zero magnitude is the one place where the
rational model departs from IEEE (Lean gives 0 where JavaScript gives
NaN), which no theorem below depends on. -/
def generateSimpleEmbedding (jsSin jsCos jsSqrt : ℚ → ℚ) (text : String) : List ℚ :=
  let words := (splitWs (text.data.map Char.toLower)).filter fun w => w.length > 0
  let init : List ℚ := List.replicate 384 0
  let afterChars := accumulateChars jsSin jsCos words init
  let totalChars := (words.map List.length).sum
  let avgWordLen : ℚ := (totalChars : ℚ) / (max 1 words.length : ℚ)
  let afterStruct := addStructural jsSin avgWordLen words.length afterChars
  let magnitude := jsSqrt ((afterStruct.map fun v => v * v).sum)
  if magnitude < 0.001 then
    let emb2 := hashSeedEmbedding jsSin text
    let magnitude2 := jsSqrt ((emb2.map fun v => v * v).sum)
    emb2.map fun v => v / magnitude2
  else afterStruct.map fun v => v / magnitude

/-! Theorems. -/

/-- C10: the lenient matcher is fully symmetric: the equality test is
symmetric and the two word-boundary containment tests swap roles when the
arguments are swapped. -/
theorem ingredientMatches_symm (u r : String) :
    ingredientMatches u r = ingredientMatches r u := by
  unfold ingredientMatches
  by_cases h : normalize u = normalize r
  · simp [h]
  · have h' : ¬ normalize r = normalize u := fun e => h e.symm
    simp [h, h', Bool.or_comm]

/-- C7: evaluating the code at the failing inputs.  Contrary to the claim,
an empty or whitespace-only ingredient string DOES match a non-empty
ingredient: after escaping, the pattern is the degenerate `\b\b`, which
matches wherever the other (normalised) string has any word boundary. -/
theorem ingredientMatches_empty_input_matches :
    ingredientMatches "" "cheese" = true ∧
    ingredientMatches " " "cheese" = true ∧
    ingredientMatches "cheese" "" = true ∧
    ingredientMatches "" "---" = false := by decide

/-- C5 counterexample: `normalizeMatchValue` does NOT pass negative finite
values through unchanged; `Math.max(0, v)` clamps them to 0. -/
theorem normalizeMatchValue_negative_counterexample :
    normalizeMatchValue (MatchValue.num (JsNum.val (-5))) = JsNum.val 0 ∧
    JsNum.val 0 ≠ JsNum.val (-5) := by decide

/-- C5 amended: on a finite numeric value `v`, `normalizeMatchValue`
returns `v * 100` when `0 < v ≤ 1` and `max 0 v` otherwise, so values
above 100 pass through unchanged while negative values are clamped to 0;
non-finite numeric inputs give 0. -/
theorem normalizeMatchValue_num_spec :
    (∀ v : ℚ, normalizeMatchValue (MatchValue.num (JsNum.val v)) =
      JsNum.val (if 0 < v ∧ v ≤ 1 then v * 100 else max 0 v)) ∧
    normalizeMatchValue (MatchValue.num JsNum.nan) = JsNum.val 0 ∧
    normalizeMatchValue (MatchValue.num JsNum.posInf) = JsNum.val 0 ∧
    normalizeMatchValue (MatchValue.num JsNum.negInf) = JsNum.val 0 := by
  refine ⟨fun v => ?_, rfl, rfl, rfl⟩
  simp only [normalizeMatchValue]
  split_ifs <;> rfl

/-- C3 counterexample: with an empty recipe-ingredient list
`calculateCoverageScore` divides 0 by 0 and returns NaN, not 0. -/
theorem calculateCoverageScore_empty_recipe_nan :
    calculateCoverageScore ["tomato"] [] = JsNum.nan ∧
    JsNum.nan ≠ JsNum.val 0 := by decide

/-- C3 amended: none of the metric calculators throws for empty inputs;
`calculateIngredientMatchRate` and `calculateExactMatches` return 0 for
empty user or recipe lists, and the utilization score computed inside
`scoreRecipes` is 0 for an empty recipe; but `calculateCoverageScore`
returns NaN (a number, not zero) when the recipe list is empty, and a
finite value otherwise. -/
theorem empty_input_metric_behaviour :
    (∀ userIngredients, calculateCoverageScore userIngredients [] = JsNum.nan) ∧
    (∀ userIngredients recipeIngredients, recipeIngredients ≠ [] →
      ∃ q : ℚ, calculateCoverageScore userIngredients recipeIngredients = JsNum.val q) ∧
    (∀ selectedIngredients rawSimilarity,
      (scoreRecipe [] selectedIngredients rawSimilarity).utilizationScore = 0) ∧
    (∀ userIngredients, calculateIngredientMatchRate userIngredients [] = 0) ∧
    (∀ recipeIngredients, calculateIngredientMatchRate [] recipeIngredients = 0) ∧
    (∀ userIngredients, calculateExactMatches userIngredients [] = 0) ∧
    (∀ recipeIngredients, calculateExactMatches [] recipeIngredients = 0) := by
  refine ⟨fun u => rfl, ?_, fun s q => rfl, ?_, fun r => rfl, fun u => rfl, ?_⟩
  · intro u rcp hne
    have hlen : (rcp.length : ℚ) ≠ 0 :=
      Nat.cast_ne_zero.mpr (fun h => hne (List.length_eq_zero.mp h))
    refine ⟨(((rcp.filter fun recipeIngredient =>
        u.any fun userIngredient =>
          ingredientMatches userIngredient recipeIngredient).length : ℚ) /
        (rcp.length : ℚ)), ?_⟩
    simp only [calculateCoverageScore, jsDiv]
    rw [if_neg hlen]
  · intro u
    simp only [calculateIngredientMatchRate]
    split_ifs with h
    · rfl
    · simp
  · intro rcp
    simp [calculateExactMatches]

/-- The single-whitespace splitter never returns an empty field list. -/
theorem splitAtWs_ne_nil : ∀ cs : List Char, splitAtWs cs ≠ [] := by
  intro cs
  induction cs with
  | nil => simp [splitAtWs]
  | cons c rest ih =>
    simp only [splitAtWs]
    split
    · simp
    · split <;> simp

/-- The `split(/\s+/)` model never returns an empty field list. -/
theorem splitWs_ne_nil : ∀ cs : List Char, splitWs cs ≠ [] := by
  intro cs
  cases cs with
  | nil => simp [splitWs]
  | cons c rest =>
    simp only [splitWs]
    by_cases hws : c.isWhitespace
    · simp [hws]
    · obtain ⟨f, fs, hf⟩ : ∃ f fs, splitAtWs rest = f :: fs := by
        cases h : splitAtWs rest with
        | nil => exact absurd h (splitAtWs_ne_nil rest)
        | cons f fs => exact ⟨f, fs, rfl⟩
      simp [splitAtWs, hf, hws, List.filter]

/-- Position-by-position equality over a zip of equal-length lists is list
equality. -/
theorem zipAll_eq_iff {α : Type} [BEq α] [LawfulBEq α] :
    ∀ l1 l2 : List α, l1.length = l2.length →
      (((l1.zip l2).all fun p => p.1 == p.2) = true ↔ l1 = l2) := by
  intro l1
  induction l1 with
  | nil =>
    intro l2 h
    cases l2 <;> simp_all
  | cons x xs ih =>
    intro l2 h
    cases l2 with
    | nil => simp at h
    | cons y ys =>
      simp only [List.zip_cons_cons, List.all_cons, Bool.and_eq_true, beq_iff_eq,
        List.cons.injEq]
      have := ih ys (by simpa using h)
      tauto

/-- C2 counterexample: `"feta  cheese"` (two internal spaces) against
`"feta cheese"` is counted as an exact match (the equal-word-count branch
compares word sequences), although the normalised strings are not
identical and the word counts are not different — so the claim's "only
if" characterisation fails. -/
theorem calculateExactMatches_only_if_counterexample :
    calculateExactMatches ["feta  cheese"] ["feta cheese"] = 1 ∧
    ¬(normalize "feta  cheese" = normalize "feta cheese" ∨
      (1 < (splitWs (normalize "feta  cheese")).length ∧
       1 < (splitWs (normalize "feta cheese")).length ∧
       (splitWs (normalize "feta  cheese")).length ≠
         (splitWs (normalize "feta cheese")).length ∧
       ∀ w ∈ splitWs (normalize "feta  cheese"), w ∈ splitWs (normalize "feta cheese"))) := by
  decide

/-- C2 amended: the strict matcher accepts a pair exactly when the
normalised strings are identical, or the two word sequences are identical
(equal word counts, same words in order — the sides differ only in
internal whitespace), or both sides are multi-word with different word
counts and every word of the shorter phrase occurs among the words of the
longer one; consequently a single-word ingredient never exact-matches a
multi-word ingredient, and the two quoted `calculateExactMatches`
examples evaluate to 0 and 1. -/
theorem calculateExactMatches_spec :
    (∀ u r : String, exactIngredientMatch u r = true ↔
      (normalize u = normalize r ∨
       splitWs (normalize u) = splitWs (normalize r) ∨
       (1 < (splitWs (normalize u)).length ∧ 1 < (splitWs (normalize r)).length ∧
        (splitWs (normalize u)).length ≠ (splitWs (normalize r)).length ∧
        ∀ w ∈ (if (splitWs (normalize u)).length < (splitWs (normalize r)).length
               then splitWs (normalize u) else splitWs (normalize r)),
          w ∈ (if (splitWs (normalize u)).length < (splitWs (normalize r)).length
               then splitWs (normalize r) else splitWs (normalize u))))) ∧
    (∀ u r : String, (splitWs (normalize u)).length = 1 →
      1 < (splitWs (normalize r)).length → exactIngredientMatch u r = false) ∧
    calculateExactMatches ["feta cheese"] ["bread", "cheese", "butter"] = 0 ∧
    calculateExactMatches ["feta cheese"] ["tomato", "feta cheese", "olives"] = 1 := by
  have main : ∀ u r : String, exactIngredientMatch u r = true ↔
      (normalize u = normalize r ∨
       splitWs (normalize u) = splitWs (normalize r) ∨
       (1 < (splitWs (normalize u)).length ∧ 1 < (splitWs (normalize r)).length ∧
        (splitWs (normalize u)).length ≠ (splitWs (normalize r)).length ∧
        ∀ w ∈ (if (splitWs (normalize u)).length < (splitWs (normalize r)).length
               then splitWs (normalize u) else splitWs (normalize r)),
          w ∈ (if (splitWs (normalize u)).length < (splitWs (normalize r)).length
               then splitWs (normalize r) else splitWs (normalize u)))) := by
    intro u r
    have hupos : 0 < (splitWs (normalize u)).length :=
      List.length_pos.mpr (splitWs_ne_nil _)
    have hrpos : 0 < (splitWs (normalize r)).length :=
      List.length_pos.mpr (splitWs_ne_nil _)
    simp only [exactIngredientMatch]
    by_cases hab : normalize u = normalize r
    · simp [hab]
    · rw [if_neg (by simpa using hab)]
      by_cases hcnt : (splitWs (normalize u)).length = (splitWs (normalize r)).length
      · rw [if_neg (by simp only [Bool.or_eq_true, Bool.and_eq_true, beq_iff_eq,
          decide_eq_true_eq]; omega)]
        rw [if_neg (by simp [hcnt])]
        rw [zipAll_eq_iff _ _ hcnt]
        constructor
        · intro h; exact Or.inr (Or.inl h)
        · rintro (h | h | h)
          · exact absurd h hab
          · exact h
          · exact absurd hcnt h.2.2.1
      · by_cases hu1 : (splitWs (normalize u)).length = 1
        · rw [if_pos (by simp only [Bool.or_eq_true, Bool.and_eq_true, beq_iff_eq,
            decide_eq_true_eq]; omega)]
          constructor
          · intro h; exact absurd h (by simp)
          · rintro (h | h | h)
            · exact absurd h hab
            · exact absurd (congrArg List.length h) hcnt
            · exact absurd h.1 (by omega)
        · by_cases hr1 : (splitWs (normalize r)).length = 1
          · rw [if_pos (by simp only [Bool.or_eq_true, Bool.and_eq_true, beq_iff_eq,
              decide_eq_true_eq]; omega)]
            constructor
            · intro h; exact absurd h (by simp)
            · rintro (h | h | h)
              · exact absurd h hab
              · exact absurd (congrArg List.length h) hcnt
              · exact absurd h.2.1 (by omega)
          · rw [if_neg (by simp only [Bool.or_eq_true, Bool.and_eq_true, beq_iff_eq,
              decide_eq_true_eq]; omega)]
            rw [if_pos (by simp [hcnt])]
            simp only [List.all_eq_true, List.contains, List.elem_iff]
            constructor
            · intro h
              exact Or.inr (Or.inr ⟨by omega, by omega, hcnt, h⟩)
            · rintro (h | h | h)
              · exact absurd h hab
              · exact absurd (congrArg List.length h) hcnt
              · exact h.2.2.2
  refine ⟨main, ?_, by decide, by decide⟩
  intro u r h1 hr
  cases hE : exactIngredientMatch u r with
  | false => rfl
  | true =>
    exfalso
    rcases (main u r).mp hE with h | h | h
    · have hl : (splitWs (normalize u)).length = (splitWs (normalize r)).length := by rw [h]
      omega
    · have hl : (splitWs (normalize u)).length = (splitWs (normalize r)).length :=
        congrArg List.length h
      omega
    · obtain ⟨ha, -, -, -⟩ := h
      omega

/-- C2 witness: the strict matcher instantiated on the single-word versus
multi-word boundary case quoted by the specification. -/
theorem calculateExactMatches_spec_witness :
    exactIngredientMatch "cheese" "feta cheese" = false :=
  calculateExactMatches_spec.2.1 "cheese" "feta cheese" (by decide) (by decide)

/-- C1: the combined score of `scoreRecipes` is the weighted sum of the
four metrics (with the exact-match count normalised by the recipe
ingredient count) under weights 0.15 / 0.5 / 0 / 0.35: all weights are
non-negative, they sum to 1, the ingredient match rate carries the
strictly largest weight, and the combining function is monotonically
non-decreasing in each metric with the others held fixed. -/
theorem combinedScore_weighted_monotone :
    (0 ≤ W_sim ∧ 0 ≤ W_match ∧ 0 ≤ W_util ∧ 0 ≤ W_exact) ∧
    W_sim + W_match + W_util + W_exact = 1 ∧
    (W_sim ≤ W_match ∧ W_util ≤ W_match ∧ W_exact ≤ W_match) ∧
    (∀ recipeIngredients selectedIngredients rawSimilarity,
      (scoreRecipe recipeIngredients selectedIngredients rawSimilarity).combinedScore =
        (scoreRecipe recipeIngredients selectedIngredients rawSimilarity).similarityScore * W_sim +
        (scoreRecipe recipeIngredients selectedIngredients rawSimilarity).ingredientMatchRate * W_match +
        (scoreRecipe recipeIngredients selectedIngredients rawSimilarity).utilizationScore * W_util +
        exactMatchPercentage
          (scoreRecipe recipeIngredients selectedIngredients rawSimilarity).exactMatches
          recipeIngredients.length * W_exact) ∧
    (∀ s1 s2 m1 m2 u1 u2 e1 e2 : ℚ, s1 ≤ s2 → m1 ≤ m2 → u1 ≤ u2 → e1 ≤ e2 →
      combineScore m1 e1 s1 + u1 * W_util ≤ combineScore m2 e2 s2 + u2 * W_util) := by
  refine ⟨by norm_num [W_sim, W_match, W_util, W_exact],
          by norm_num [W_sim, W_match, W_util, W_exact],
          by norm_num [W_sim, W_match, W_util, W_exact], ?_, ?_⟩
  · intro rcp sel raw
    simp only [scoreRecipe, combineScore, W_sim, W_match, W_util, W_exact]
    ring
  · intro s1 s2 m1 m2 u1 u2 e1 e2 hs hm hu he
    simp only [combineScore, W_util]
    nlinarith

/-- C1 witness: the weighted-sum equation and monotonicity instantiated at
concrete metric values. -/
theorem combinedScore_weighted_monotone_witness :
    combineScore 0 0 0 + 0 * W_util ≤ combineScore 1 1 1 + 1 * W_util :=
  combinedScore_weighted_monotone.2.2.2.2 0 1 0 1 0 1 0 1
    (by norm_num) (by norm_num) (by norm_num) (by norm_num)

/-- The dot product accumulated over a zip is symmetric in the two
vectors. -/
theorem zip_mul_sum_comm : ∀ v1 v2 : List ℚ,
    ((v1.zip v2).map fun p => p.1 * p.2).sum = ((v2.zip v1).map fun p => p.1 * p.2).sum := by
  intro v1
  induction v1 with
  | nil => intro v2; cases v2 <;> simp
  | cons x xs ih =>
    intro v2
    cases v2 with
    | nil => simp
    | cons y ys => simp [ih ys, mul_comm]

/-- The squared-magnitude sum of the left vector of a zip equals the
squared-magnitude sum of the right vector of the swapped zip. -/
theorem zip_sq_comm : ∀ v1 v2 : List ℚ,
    ((v1.zip v2).map fun p => p.1 * p.1).sum = ((v2.zip v1).map fun p => p.2 * p.2).sum := by
  intro v1
  induction v1 with
  | nil => intro v2; cases v2 <;> simp
  | cons x xs ih =>
    intro v2
    cases v2 with
    | nil => simp
    | cons y ys => simp [ih ys]

/-- An all-zero left vector contributes a zero squared-magnitude sum. -/
theorem zip_sq_zero_left : ∀ v1 v2 : List ℚ, (∀ x ∈ v1, x = 0) →
    ((v1.zip v2).map fun p => p.1 * p.1).sum = 0 := by
  intro v1
  induction v1 with
  | nil => intro v2 _; cases v2 <;> simp
  | cons x xs ih =>
    intro v2 h
    cases v2 with
    | nil => simp
    | cons y ys =>
      have hx : x = 0 := h x (List.mem_cons_self x xs)
      simp [hx, ih ys fun z hz => h z (List.mem_cons_of_mem x hz)]

/-- C6: `cosineSimilarity` throws exactly when the two vectors differ in
length; on equal-length vectors it never throws, is symmetric in its two
vector arguments, and returns exactly 0 whenever either vector is
all-zero (its magnitude is zero).  The hypothesis `jsSqrt 0 = 0` is the
one property of `Math.sqrt` the zero case uses. -/
theorem cosineSimilarity_spec (jsSqrt : ℚ → ℚ) (h0 : jsSqrt 0 = 0) :
    (∀ vec1 vec2 : List ℚ,
      (∃ e, cosineSimilarity jsSqrt vec1 vec2 = Except.error e) ↔
        vec1.length ≠ vec2.length) ∧
    (∀ vec1 vec2 : List ℚ,
      cosineSimilarity jsSqrt vec1 vec2 = cosineSimilarity jsSqrt vec2 vec1) ∧
    (∀ vec1 vec2 : List ℚ, vec1.length = vec2.length →
      ((∀ x ∈ vec1, x = 0) ∨ (∀ x ∈ vec2, x = 0)) →
      cosineSimilarity jsSqrt vec1 vec2 = Except.ok 0) := by
  refine ⟨?_, ?_, ?_⟩
  · intro v1 v2
    simp only [cosineSimilarity]
    by_cases h : v1.length = v2.length
    · rw [if_neg (by simpa using h)]
      constructor
      · rintro ⟨e, he⟩
        exfalso
        split at he <;> simp at he
      · intro hne
        exact absurd h hne
    · rw [if_pos h]
      exact ⟨fun _ => h, fun _ => ⟨_, rfl⟩⟩
  · intro v1 v2
    have hd := zip_mul_sum_comm v2 v1
    have h1 := zip_sq_comm v2 v1
    have h2 := (zip_sq_comm v1 v2).symm
    simp only [cosineSimilarity, hd, h1, h2]
    split_ifs <;> first
      | rfl
      | omega
      | tauto
      | (congr 1; ring)
  · intro v1 v2 hlen hzero
    simp only [cosineSimilarity]
    rw [if_neg (by simpa using hlen)]
    rcases hzero with hz | hz
    · rw [if_pos (Or.inl (by rw [zip_sq_zero_left v1 v2 hz, h0]))]
    · rw [if_pos (Or.inr (by rw [← zip_sq_comm v2 v1, zip_sq_zero_left v2 v1 hz, h0]))]

/-- C6 witness: the zero-magnitude case at concrete vectors, with the
identity function standing in for the square root (it satisfies the
required property at 0). -/
theorem cosineSimilarity_spec_witness :
    cosineSimilarity (fun q => q) [0, 0] [3, 4] = Except.ok 0 :=
  (cosineSimilarity_spec (fun q => q) rfl).2.2 [0, 0] [3, 4] rfl (Or.inl (by decide))

/-- Folding a length-preserving update over a list preserves the
accumulator's length. -/
theorem foldl_length_fixed {β : Type} (f : List ℚ → β → List ℚ)
    (hf : ∀ acc b, (f acc b).length = acc.length) :
    ∀ (l : List β) (init : List ℚ), (l.foldl f init).length = init.length := by
  intro l
  induction l with
  | nil => intro init; rfl
  | cons b bs ih => intro init; rw [List.foldl_cons, ih, hf]

/-- The in-place accumulation never changes the array length. -/
theorem addAt_length (v : List ℚ) (i : Nat) (x : ℚ) : (addAt v i x).length = v.length :=
  List.length_set v i _

/-- A per-character embedding update never changes the array length. -/
theorem processChar_length (jsSin jsCos : ℚ → ℚ) (wi : Nat) :
    ∀ emb p, (processChar jsSin jsCos wi emb p).length = emb.length := by
  intro emb p
  simp [processChar, addAt_length]

/-- The character-accumulation stage never changes the array length. -/
theorem accumulateChars_length (jsSin jsCos : ℚ → ℚ) (words : List (List Char))
    (init : List ℚ) : (accumulateChars jsSin jsCos words init).length = init.length := by
  unfold accumulateChars
  apply foldl_length_fixed
  intro acc wp
  apply foldl_length_fixed
  intro acc2 p
  exact processChar_length jsSin jsCos wp.1 acc2 p

/-- The structural-signal stage never changes the array length. -/
theorem addStructural_length (jsSin : ℚ → ℚ) (avgWordLen : ℚ) (wordCount : Nat)
    (emb : List ℚ) : (addStructural jsSin avgWordLen wordCount emb).length = emb.length := by
  unfold addStructural
  apply foldl_length_fixed
  intro acc i
  exact addAt_length acc _ _

/-- The hash-seeded regeneration always has 384 entries. -/
theorem hashSeedEmbedding_length (jsSin : ℚ → ℚ) (text : String) :
    (hashSeedEmbedding jsSin text).length = 384 := by
  simp [hashSeedEmbedding]

/-- C9: the fallback embedding generator is a pure function of its text
(the embedding contains no state, so equal texts give equal vectors), and
its output always has exactly 384 entries. -/
theorem generateSimpleEmbedding_pure_and_length :
    ∀ (jsSin jsCos jsSqrt : ℚ → ℚ) (text1 text2 : String), text1 = text2 →
      generateSimpleEmbedding jsSin jsCos jsSqrt text1 =
        generateSimpleEmbedding jsSin jsCos jsSqrt text2 ∧
      (generateSimpleEmbedding jsSin jsCos jsSqrt text1).length = 384 := by
  intro jsSin jsCos jsSqrt text1 text2 htext
  subst htext
  refine ⟨rfl, ?_⟩
  simp only [generateSimpleEmbedding]
  split
  · rw [List.length_map, hashSeedEmbedding_length]
  · rw [List.length_map, addStructural_length, accumulateChars_length,
      List.length_replicate]

/-- C3 witness: the finite-coverage conclusion at concrete nonempty
inputs. -/
theorem empty_input_metric_behaviour_witness :
    ∃ q : ℚ, calculateCoverageScore ["tomato"] ["tomato soup"] = JsNum.val q :=
  empty_input_metric_behaviour.2.1 ["tomato"] ["tomato soup"] (by decide)

/-- C9 witness: the determinism conclusion at a concrete text. -/
theorem generateSimpleEmbedding_pure_and_length_witness :
    (generateSimpleEmbedding (fun q => q) (fun q => q) (fun q => q) "feta cheese").length
      = 384 :=
  (generateSimpleEmbedding_pure_and_length (fun q => q) (fun q => q) (fun q => q)
    "feta cheese" "feta cheese" rfl).2

/-- The values `normalizeMatchValue` and `parseMatchValue` can actually
produce: `+Infinity` or a finite value (never NaN or `-Infinity`). -/
def Clean (n : JsNum) : Prop :=
  n = JsNum.posInf ∨ ∃ q : ℚ, n = JsNum.val q

/-- Order-embedding of clean values into `WithTop ℚ` (`+Infinity` at the
top); the NaN and `-Infinity` cases are unreachable junk. -/
def keyVal : JsNum → WithTop ℚ
  | JsNum.val q => (q : WithTop ℚ)
  | _ => ⊤

/-- On clean values `numLt` agrees with the `WithTop ℚ` order. -/
theorem numLt_clean_iff {a b : JsNum} (ha : Clean a) (hb : Clean b) :
    numLt a b = true ↔ keyVal a < keyVal b := by
  rcases ha with rfl | ⟨qa, rfl⟩ <;> rcases hb with rfl | ⟨qb, rfl⟩ <;>
    simp [numLt, keyVal, WithTop.coe_lt_top, WithTop.coe_lt_coe]

/-- Every output of `normalizeMatchValue` is clean. -/
theorem normalizeMatchValue_clean (v : MatchValue) : Clean (normalizeMatchValue v) := by
  cases v with
  | null => exact Or.inr ⟨0, rfl⟩
  | undefined => exact Or.inr ⟨0, rfl⟩
  | num n =>
    cases n with
    | nan => exact Or.inr ⟨0, rfl⟩
    | posInf => exact Or.inr ⟨0, rfl⟩
    | negInf => exact Or.inr ⟨0, rfl⟩
    | val q =>
      simp only [normalizeMatchValue]
      split_ifs <;> exact Or.inr ⟨_, rfl⟩
  | str s =>
    simp only [normalizeMatchValue]
    cases h : jsParseFloat (stripTrailingPercent (jsTrim s)) with
    | nan => exact Or.inr ⟨0, rfl⟩
    | posInf => exact Or.inl rfl
    | negInf => exact Or.inr ⟨0, rfl⟩
    | val q =>
      dsimp only
      split_ifs <;> exact Or.inr ⟨_, rfl⟩

/-- Every output of `parseMatchValue` is clean (in fact finite). -/
theorem parseMatchValue_clean (v : MatchValue) : Clean (parseMatchValue v) := by
  cases v with
  | null => exact Or.inr ⟨0, rfl⟩
  | undefined => exact Or.inr ⟨0, rfl⟩
  | num n =>
    cases n with
    | nan => exact Or.inr ⟨0, rfl⟩
    | posInf => exact Or.inr ⟨0, rfl⟩
    | negInf => exact Or.inr ⟨0, rfl⟩
    | val q =>
      simp only [parseMatchValue]
      split_ifs <;> exact Or.inr ⟨_, rfl⟩
  | str s =>
    simp only [parseMatchValue]
    cases h : jsParseFloat (jsTrim (stripTrailingPercent s)) with
    | nan => exact Or.inr ⟨0, rfl⟩
    | posInf => exact Or.inr ⟨0, rfl⟩
    | negInf => exact Or.inr ⟨0, rfl⟩
    | val q =>
      dsimp only
      split_ifs <;> exact Or.inr ⟨_, rfl⟩

/-- Every output of `getMatchFromRecipe` is clean. -/
theorem getMatchFromRecipe_clean {α : Type} (r : RecipeWithMatch α) :
    Clean (getMatchFromRecipe r) := by
  unfold getMatchFromRecipe
  cases r.matchField with
  | some v => exact parseMatchValue_clean v
  | none =>
    cases r.coverageScore with
    | some v => exact parseMatchValue_clean v
    | none => exact Or.inr ⟨0, rfl⟩

/-- Inserting into the sorted accumulator permutes the element onto the
front. -/
theorem insertDesc_perm {α : Type} (key : α → JsNum) (x : α) :
    ∀ l : List α, (insertDesc key x l).Perm (x :: l) := by
  intro l
  induction l with
  | nil => exact List.Perm.refl _
  | cons y ys ih =>
    simp only [insertDesc]
    split
    · exact (List.Perm.cons y ih).trans (List.Perm.swap x y ys)
    · exact List.Perm.refl _

/-- The stable descending sort is a permutation of its input. -/
theorem sortByDesc_perm {α : Type} (key : α → JsNum) :
    ∀ l : List α, (sortByDesc key l).Perm l := by
  intro l
  induction l with
  | nil => exact List.Perm.refl _
  | cons x xs ih =>
    simp only [sortByDesc, List.foldr_cons]
    exact ((insertDesc_perm key x _).trans (List.Perm.cons x ih))

/-- Pairwise preservation through one stable insertion, under local
ordering hypotheses about the inserted element. -/
theorem insertDesc_pairwise {α : Type} (key : α → JsNum) (R : α → α → Prop) (x : α) :
    ∀ l : List α,
      (∀ y ∈ l, numLt (key x) (key y) = true → R y x) →
      (∀ y ∈ l, numLt (key x) (key y) = false → R x y) →
      (∀ y ∈ l, ∀ z ∈ l, numLt (key x) (key y) = false → R y z → R x z) →
      l.Pairwise R → (insertDesc key x l).Pairwise R := by
  intro l
  induction l with
  | nil => intro _ _ _ _; simp [insertDesc]
  | cons y ys ih =>
    intro h1 h2 h3 hp
    rcases List.pairwise_cons.mp hp with ⟨hy, hys⟩
    simp only [insertDesc]
    by_cases hxy : numLt (key x) (key y) = true
    · rw [if_pos hxy]
      refine List.pairwise_cons.mpr ⟨?_, ?_⟩
      · intro z hz
        rcases List.mem_cons.mp ((insertDesc_perm key x ys).mem_iff.mp hz) with rfl | hz'
        · exact h1 y (List.mem_cons_self y ys) hxy
        · exact hy z hz'
      · refine ih ?_ ?_ ?_ hys
        · exact fun z hz => h1 z (List.mem_cons_of_mem y hz)
        · exact fun z hz => h2 z (List.mem_cons_of_mem y hz)
        · exact fun z hz w hw => h3 z (List.mem_cons_of_mem y hz) w (List.mem_cons_of_mem y hw)
    · have hxy' : numLt (key x) (key y) = false := by
        cases h : numLt (key x) (key y)
        · rfl
        · exact absurd h hxy
      rw [if_neg hxy]
      refine List.pairwise_cons.mpr ⟨?_, hp⟩
      intro z hz
      rcases List.mem_cons.mp hz with rfl | hz'
      · exact h2 z (List.mem_cons_self z ys) hxy'
      · exact h3 y (List.mem_cons_self y ys) z (List.mem_cons_of_mem y hz') hxy' (hy z hz')

/-- Pairwise property of the full stable sort: `P` is the original
precedence relation of the input (in `filterAndSortRecipes`, "appears
earlier"), and the three hypotheses say how the comparator verdicts
combine with `P` into the target relation `R`. -/
theorem sortByDesc_pairwise {α : Type} (key : α → JsNum) (R P : α → α → Prop) :
    ∀ l : List α,
      (∀ a ∈ l, ∀ b ∈ l, P a b → numLt (key a) (key b) = true → R b a) →
      (∀ a ∈ l, ∀ b ∈ l, P a b → numLt (key a) (key b) = false → R a b) →
      (∀ a ∈ l, ∀ b ∈ l, ∀ c ∈ l, P a c → numLt (key a) (key b) = false → R b c → R a c) →
      l.Pairwise P → (sortByDesc key l).Pairwise R := by
  intro l
  induction l with
  | nil => intro _ _ _ _; simp [sortByDesc]
  | cons x xs ih =>
    intro h1 h2 h3 hp
    rcases List.pairwise_cons.mp hp with ⟨hx, hxs⟩
    have hmem : ∀ y ∈ sortByDesc key xs, y ∈ xs :=
      fun y hy => (sortByDesc_perm key xs).mem_iff.mp hy
    simp only [sortByDesc, List.foldr_cons]
    apply insertDesc_pairwise
    · intro y hy ht
      exact h1 x (List.mem_cons_self x xs) y (List.mem_cons_of_mem x (hmem y hy))
        (hx y (hmem y hy)) ht
    · intro y hy hf
      exact h2 x (List.mem_cons_self x xs) y (List.mem_cons_of_mem x (hmem y hy))
        (hx y (hmem y hy)) hf
    · intro y hy z hz hf hr
      exact h3 x (List.mem_cons_self x xs) y (List.mem_cons_of_mem x (hmem y hy))
        z (List.mem_cons_of_mem x (hmem z hz)) (hx z (hmem z hz)) hf hr
    · refine ih ?_ ?_ ?_ hxs
      · exact fun a ha b hb => h1 a (List.mem_cons_of_mem x ha) b (List.mem_cons_of_mem x hb)
      · exact fun a ha b hb => h2 a (List.mem_cons_of_mem x ha) b (List.mem_cons_of_mem x hb)
      · exact fun a ha b hb c hc => h3 a (List.mem_cons_of_mem x ha)
          b (List.mem_cons_of_mem x hb) c (List.mem_cons_of_mem x hc)

/-- C8: the flexible sorter returns `[]` on `null`, `undefined` and
non-array input, and on an array it returns a fresh list that is exactly
the positive-match sublist of the input as a multiset (so every output
item is an input item, and the embedding of the non-mutating source
operations `filter`/`sort`-on-the-copy leaves the input list untouched by
construction). -/
theorem filterAndSortRecipesFlex_spec {α : Type} :
    (filterAndSortRecipesFlex (JsArrayInput.null (α := RecipeWithMatch α)) = []) ∧
    (filterAndSortRecipesFlex (JsArrayInput.undefined (α := RecipeWithMatch α)) = []) ∧
    (filterAndSortRecipesFlex (JsArrayInput.notAnArray (α := RecipeWithMatch α)) = []) ∧
    (∀ recipes : List (RecipeWithMatch α),
      (filterAndSortRecipesFlex (JsArrayInput.array recipes)).Perm
        (recipes.filter fun recipe => numLt (JsNum.val 0) (getMatchFromRecipe recipe)) ∧
      ∀ r ∈ filterAndSortRecipesFlex (JsArrayInput.array recipes), r ∈ recipes) := by
  refine ⟨rfl, rfl, rfl, fun recipes => ⟨?_, ?_⟩⟩
  · exact sortByDesc_perm getMatchFromRecipe _
  · intro r hr
    exact List.mem_of_mem_filter
      ((sortByDesc_perm getMatchFromRecipe _).mem_iff.mp hr)

/-- On clean values, a false comparator verdict means greater-or-equal. -/
theorem numLt_false_iff_le {a b : JsNum} (ha : Clean a) (hb : Clean b) :
    numLt a b = false ↔ keyVal b ≤ keyVal a := by
  constructor
  · intro h
    refine le_of_not_lt fun hlt => ?_
    rw [(numLt_clean_iff ha hb).mpr hlt] at h
    cases h
  · intro h
    cases hx : numLt a b
    · rfl
    · exact absurd ((numLt_clean_iff ha hb).mp hx) (not_lt.mpr h)

/-- Trivial pairwise relation, used to instantiate the precedence relation
when stability is not being tracked. -/
theorem pairwise_trivial {β : Type} : ∀ l : List β, l.Pairwise fun _ _ => True := by
  intro l
  induction l with
  | nil => exact List.Pairwise.nil
  | cons x xs ih => exact List.pairwise_cons.mpr ⟨fun _ _ => trivial, ih⟩

/-- Stable insertion commutes with mapping a key-preserving function. -/
theorem insertDesc_map {α β : Type} (keyA : α → JsNum) (keyB : β → JsNum) (f : α → β)
    (hkey : ∀ a, keyB (f a) = keyA a) (x : α) :
    ∀ l : List α, (insertDesc keyA x l).map f = insertDesc keyB (f x) (l.map f) := by
  intro l
  induction l with
  | nil => rfl
  | cons y ys ih =>
    simp only [insertDesc, List.map_cons, hkey]
    cases h : numLt (keyA x) (keyA y) <;> simp [h, ih]

/-- The stable sort commutes with mapping a key-preserving function. -/
theorem sortByDesc_map {α β : Type} (keyA : α → JsNum) (keyB : β → JsNum) (f : α → β)
    (hkey : ∀ a, keyB (f a) = keyA a) :
    ∀ l : List α, (sortByDesc keyA l).map f = sortByDesc keyB (l.map f) := by
  intro l
  induction l with
  | nil => rfl
  | cons x xs ih =>
    simp only [sortByDesc, List.foldr_cons, List.map_cons] at *
    rw [insertDesc_map keyA keyB f hkey, ih]

/-- Every element of `enumFrom n l` has index at least `n`. -/
theorem mem_enumFrom_le {α : Type} :
    ∀ (l : List α) (n : Nat) (p : Nat × α), p ∈ List.enumFrom n l → n ≤ p.1 := by
  intro l
  induction l with
  | nil => intro n p h; cases h
  | cons x xs ih =>
    intro n p h
    rcases List.mem_cons.mp h with rfl | h'
    · exact Nat.le_refl n
    · exact Nat.le_of_succ_le (ih (n + 1) p h')

/-- The indices of `enumFrom` are strictly increasing. -/
theorem pairwise_enumFrom_lt {α : Type} :
    ∀ (l : List α) (n : Nat), (List.enumFrom n l).Pairwise fun a b => a.1 < b.1 := by
  intro l
  induction l with
  | nil => intro n; exact List.Pairwise.nil
  | cons x xs ih =>
    intro n
    refine List.pairwise_cons.mpr ⟨?_, ih (n + 1)⟩
    intro p hp
    exact Nat.lt_of_lt_of_le (Nat.lt_succ_self n) (mem_enumFrom_le xs (n + 1) p hp)

/-- The indices of `enum` are strictly increasing. -/
theorem pairwise_enum_lt {α : Type} (l : List α) :
    l.enum.Pairwise fun a b => a.1 < b.1 :=
  pairwise_enumFrom_lt l 0

/-- Filtering after pairing equals pairing after filtering, because the
filter predicate only looks at the stored normalised value. -/
theorem filter_map_pair {α : Type} (getMatch : α → MatchValue) :
    ∀ xs : List α,
      ((xs.map fun r => (r, normalizeMatchValue (getMatch r))).filter
          fun p => numLt (JsNum.val 0) p.2) =
        (xs.filter fun r => numLt (JsNum.val 0) (normalizeMatchValue (getMatch r))).map
          fun r => (r, normalizeMatchValue (getMatch r)) := by
  intro xs
  induction xs with
  | nil => rfl
  | cons x xs ih =>
    simp only [List.map_cons, List.filter_cons]
    cases h : numLt (JsNum.val 0) (normalizeMatchValue (getMatch x)) <;> simp [h, ih]

/-- Members of the paired-and-filtered working list carry exactly the
normalised value of their item. -/
theorem mem_pairs_snd {α : Type} (getMatch : α → MatchValue) (xs : List α)
    {p : α × JsNum}
    (hp : p ∈ ((xs.map fun r => (r, normalizeMatchValue (getMatch r))).filter
      fun q => numLt (JsNum.val 0) q.2)) :
    p.2 = normalizeMatchValue (getMatch p.1) := by
  have hm := List.mem_of_mem_filter hp
  obtain ⟨r, _, rfl⟩ := List.mem_map.mp hm
  rfl

/-- C8 witness: the membership conclusion at a concrete one-element
array. -/
theorem filterAndSortRecipesFlex_spec_witness :
    (⟨some (MatchValue.num (JsNum.val 50)), none, ()⟩ : RecipeWithMatch Unit) ∈
      [(⟨some (MatchValue.num (JsNum.val 50)), none, ()⟩ : RecipeWithMatch Unit)] :=
  (filterAndSortRecipesFlex_spec.2.2.2
      [⟨some (MatchValue.num (JsNum.val 50)), none, ()⟩]).2
    ⟨some (MatchValue.num (JsNum.val 50)), none, ()⟩ (by decide)

/-- Naturality of the sorter: tagging the items (e.g. with their original
indices) and reading the match value through the tag gives the same
result as sorting the untagged items, because the comparator only sees
the match values. -/
theorem filterAndSortRecipes_map {α β : Type} (f : α → β) (getMatch : β → MatchValue) :
    ∀ ys : List α,
      (filterAndSortRecipes (fun a => getMatch (f a)) ys).map f =
        filterAndSortRecipes getMatch (ys.map f) := by
  intro ys
  have hfilter : ∀ l : List (α × JsNum),
      ((l.filter fun p => numLt (JsNum.val 0) p.2).map
          fun p => ((f p.1, p.2) : β × JsNum)) =
        ((l.map fun p => ((f p.1, p.2) : β × JsNum)).filter
          fun p => numLt (JsNum.val 0) p.2) := by
    intro l
    induction l with
    | nil => rfl
    | cons x l ih =>
      simp only [List.map_cons, List.filter_cons]
      cases h : numLt (JsNum.val 0) x.2 <;> simp [h, ih]
  have hsort := sortByDesc_map (Prod.snd (α := α) (β := JsNum))
    (Prod.snd (α := β) (β := JsNum)) (fun p => ((f p.1, p.2) : β × JsNum)) (fun p => rfl)
  have hA : List.map ((fun b : β => (b, normalizeMatchValue (getMatch b))) ∘ f) ys =
      (ys.map fun a => ((a, normalizeMatchValue (getMatch (f a))) : α × JsNum)).map
        fun p => ((f p.1, p.2) : β × JsNum) := by
    rw [List.map_map]
    rfl
  unfold filterAndSortRecipes
  conv_rhs => rw [List.map_map]
  conv_rhs => rw [hA, ← hfilter, ← hsort _]
  rw [List.map_map, List.map_map]
  rfl

/-- C4: `filterAndSortRecipes` returns exactly the items whose normalised
match value is strictly positive (as a multiset, so the output length is
at most the input length), in descending order of normalised match value;
and the sort is stable: running the same function over the index-tagged
input (which, by naturality, projects back to the plain run) yields an
order in which ties keep their original relative index order. -/
theorem filterAndSortRecipes_spec {α : Type} (getMatch : α → MatchValue) (xs : List α) :
    (filterAndSortRecipes getMatch xs).Perm
      (xs.filter fun r => numLt (JsNum.val 0) (normalizeMatchValue (getMatch r))) ∧
    (filterAndSortRecipes getMatch xs).length ≤ xs.length ∧
    (filterAndSortRecipes getMatch xs).Pairwise (fun a b =>
      numLt (normalizeMatchValue (getMatch a)) (normalizeMatchValue (getMatch b)) = false) ∧
    (filterAndSortRecipes (fun p : Nat × α => getMatch p.2) xs.enum).Pairwise (fun a b =>
      numLt (normalizeMatchValue (getMatch b.2)) (normalizeMatchValue (getMatch a.2)) = true ∨
      (numLt (normalizeMatchValue (getMatch a.2)) (normalizeMatchValue (getMatch b.2)) = false ∧
       numLt (normalizeMatchValue (getMatch b.2)) (normalizeMatchValue (getMatch a.2)) = false ∧
       a.1 < b.1)) ∧
    filterAndSortRecipes getMatch xs =
      (filterAndSortRecipes (fun p : Nat × α => getMatch p.2) xs.enum).map Prod.snd := by
  have hEq : filterAndSortRecipes getMatch xs =
      (sortByDesc Prod.snd
        ((xs.filter fun r => numLt (JsNum.val 0) (normalizeMatchValue (getMatch r))).map
          fun r => (r, normalizeMatchValue (getMatch r)))).map Prod.fst := by
    unfold filterAndSortRecipes
    rw [filter_map_pair]
  have hsnd : ∀ p ∈ ((xs.filter fun r =>
        numLt (JsNum.val 0) (normalizeMatchValue (getMatch r))).map
          fun r => (r, normalizeMatchValue (getMatch r))),
      Prod.snd p = normalizeMatchValue (getMatch p.1) := by
    intro p hp
    obtain ⟨r, _, rfl⟩ := List.mem_map.mp hp
    rfl
  have hperm : (filterAndSortRecipes getMatch xs).Perm
      (xs.filter fun r => numLt (JsNum.val 0) (normalizeMatchValue (getMatch r))) := by
    rw [hEq]
    have h2 : ((xs.filter fun r =>
        numLt (JsNum.val 0) (normalizeMatchValue (getMatch r))).map
          (fun r => (r, normalizeMatchValue (getMatch r)))).map Prod.fst =
        xs.filter fun r => numLt (JsNum.val 0) (normalizeMatchValue (getMatch r)) := by
      simp [List.map_map, Function.comp_def, List.map_id']
    refine ((sortByDesc_perm Prod.snd _).map Prod.fst).trans ?_
    rw [h2]
  refine ⟨hperm, ?_, ?_, ?_, ?_⟩
  · exact hperm.length_eq ▸ List.length_filter_le _ xs
  · rw [hEq, List.pairwise_map]
    apply sortByDesc_pairwise Prod.snd _ (fun _ _ => True) _ ?_ ?_ ?_ (pairwise_trivial _)
    · intro a ha b hb _ ht
      rw [hsnd a ha, hsnd b hb] at ht
      have hca := normalizeMatchValue_clean (getMatch a.1)
      have hcb := normalizeMatchValue_clean (getMatch b.1)
      exact (numLt_false_iff_le hcb hca).mpr (le_of_lt ((numLt_clean_iff hca hcb).mp ht))
    · intro a ha b hb _ hf
      rw [hsnd a ha, hsnd b hb] at hf
      exact hf
    · intro a ha b hb c hc _ hf hbc
      rw [hsnd a ha, hsnd b hb] at hf
      have hca := normalizeMatchValue_clean (getMatch a.1)
      have hcb := normalizeMatchValue_clean (getMatch b.1)
      have hcc := normalizeMatchValue_clean (getMatch c.1)
      exact (numLt_false_iff_le hca hcc).mpr
        (le_trans ((numLt_false_iff_le hcb hcc).mp hbc) ((numLt_false_iff_le hca hcb).mp hf))
  · have hEq2 : filterAndSortRecipes (fun p : Nat × α => getMatch p.2) xs.enum =
        (sortByDesc Prod.snd
          ((xs.enum.filter fun e =>
              numLt (JsNum.val 0) (normalizeMatchValue (getMatch e.2))).map
            fun e => (e, normalizeMatchValue (getMatch e.2)))).map Prod.fst := by
      unfold filterAndSortRecipes
      rw [filter_map_pair (fun p : Nat × α => getMatch p.2) xs.enum]
    have hsnd2 : ∀ p ∈ ((xs.enum.filter fun e =>
          numLt (JsNum.val 0) (normalizeMatchValue (getMatch e.2))).map
            fun e => (e, normalizeMatchValue (getMatch e.2))),
        Prod.snd p = normalizeMatchValue (getMatch p.1.2) := by
      intro p hp
      obtain ⟨e, _, rfl⟩ := List.mem_map.mp hp
      rfl
    rw [hEq2, List.pairwise_map]
    apply sortByDesc_pairwise Prod.snd _ (fun p q => p.1.1 < q.1.1) _ ?_ ?_ ?_ ?_
    · intro a ha b hb _ ht
      rw [hsnd2 a ha, hsnd2 b hb] at ht
      exact Or.inl ht
    · intro a ha b hb hpr hf
      rw [hsnd2 a ha, hsnd2 b hb] at hf
      by_cases hba : numLt (normalizeMatchValue (getMatch b.1.2))
          (normalizeMatchValue (getMatch a.1.2)) = true
      · exact Or.inl hba
      · have hba' : numLt (normalizeMatchValue (getMatch b.1.2))
            (normalizeMatchValue (getMatch a.1.2)) = false := by
          cases h : numLt (normalizeMatchValue (getMatch b.1.2))
            (normalizeMatchValue (getMatch a.1.2))
          · rfl
          · exact absurd h hba
        exact Or.inr ⟨hf, hba', hpr⟩
    · intro a ha b hb c hc hpr hf hbc
      rw [hsnd2 a ha, hsnd2 b hb] at hf
      have hca := normalizeMatchValue_clean (getMatch a.1.2)
      have hcb := normalizeMatchValue_clean (getMatch b.1.2)
      have hcc := normalizeMatchValue_clean (getMatch c.1.2)
      have hba : keyVal (normalizeMatchValue (getMatch b.1.2)) ≤
          keyVal (normalizeMatchValue (getMatch a.1.2)) :=
        (numLt_false_iff_le hca hcb).mp hf
      rcases hbc with hcb2 | ⟨hbc1, hcb1, -⟩
      · exact Or.inl ((numLt_clean_iff hcc hca).mpr
          (lt_of_lt_of_le ((numLt_clean_iff hcc hcb).mp hcb2) hba))
      · by_cases hca2 : numLt (normalizeMatchValue (getMatch c.1.2))
            (normalizeMatchValue (getMatch a.1.2)) = true
        · exact Or.inl hca2
        · have hca2' : numLt (normalizeMatchValue (getMatch c.1.2))
              (normalizeMatchValue (getMatch a.1.2)) = false := by
            cases h : numLt (normalizeMatchValue (getMatch c.1.2))
              (normalizeMatchValue (getMatch a.1.2))
            · rfl
            · exact absurd h hca2
          refine Or.inr ⟨?_, hca2', hpr⟩
          exact (numLt_false_iff_le hca hcc).mpr
            (le_trans ((numLt_false_iff_le hcb hcc).mp hbc1) hba)
    · refine List.pairwise_map.mpr ?_
      exact (pairwise_enum_lt xs).sublist (List.filter_sublist _)
  · rw [filterAndSortRecipes_map Prod.snd getMatch xs.enum, List.enum_map_snd]

end ReadyRecipe
